import Mathlib

/-!
Verification development for the deck-string decoder of the slay-the-relics
backend (src/backend/api/deck.go and the reference helpers in deck_test.go).

Strings are modelled as `List Char` (the repository only handles ASCII
documents; Go byte strings and Go `string`s coincide on them, and the byte
pipeline and the string pipeline in the source are byte-for-byte analogous).
Go runtime panics (index out of range on a missing separator or an oversized
dictionary) are modelled as explicit `Fault` values marked by `isCrash`,
distinct from error values returned by the Go functions.
-/

namespace STS

/-- Characters of the Go constant WILDCARDS (88 distinct ASCII symbols; note
the alphabet skips the letters u and U). -/
def WILDCARDS : List Char :=
  "0123456789abcdefghijklmnopqrstvwxyzABCDEFGHIJKLMNOPQRSTVWXYZ_`[]/^%?@><=-+*:;,.()#$!'\x7b\x7d~".toList

/-- The i-th wildcard symbol (only used for i < 88, the matcher table size). -/
def wc (i : Nat) : Char := WILDCARDS.getD i ' '

/-- Structural-recursion worker for goSplit: the fuel argument only drives the
recursion and every caller supplies at least the input's length, so the
zero-fuel branch is never reached (goSplitF_fuel proves fuel irrelevance). -/
def goSplitF (d : Char) (ds : List Char) : Nat → List Char → List (List Char)
  | _, [] => [[]]
  | 0, _ :: _ => [[]]
  | fuel + 1, c :: rest =>
    if (d :: ds).isPrefixOf (c :: rest) then
      [] :: goSplitF d ds fuel (rest.drop ds.length)
    else
      (goSplitF d ds fuel rest).modifyHead (c :: ·)

/-- Go strings.Split / bytes.Split around the nonempty separator `d :: ds`:
leftmost non-overlapping matches, every part kept (a trailing separator yields
a trailing empty part, and splitting the empty string yields one empty part). -/
def goSplit (d : Char) (ds : List Char) (s : List Char) : List (List Char) :=
  goSplitF d ds s.length s

/-- Structural-recursion worker for goSegs (fuel as in goSplitF). -/
def goSegsF (d : Char) (ds : List Char) : Nat → List Char → List (List Char)
  | _, [] => []
  | 0, _ :: _ => []
  | fuel + 1, c :: rest =>
    if (d :: ds).isPrefixOf (c :: rest) then
      [] :: goSegsF d ds fuel (rest.drop ds.length)
    else
      match goSegsF d ds fuel rest with
      | [] => [[c]]
      | h :: t => (c :: h) :: t

/-- The manual index-walking loop shared by readDelimitedBytes and
parseCommaDelimitedIntegerArray: leftmost separator matches, but the loop stops
as soon as the cursor passes the end, so a separator at the very end produces
no trailing empty segment, and the empty string produces no segment at all. -/
def goSegs (d : Char) (ds : List Char) (s : List Char) : List (List Char) :=
  goSegsF d ds s.length s

/-- Decimal digit run parser: all characters must be ASCII digits and there
must be at least one (helper for strconv.ParseInt). -/
def digitsToNat? : List Char → Option Nat
  | [] => none
  | l =>
    l.foldl
      (fun acc c =>
        match acc with
        | none => none
        | some a => if 48 ≤ c.toNat ∧ c.toNat ≤ 57 then some (a * 10 + (c.toNat - 48)) else none)
      (some 0)

/-- strconv.ParseInt(s, 10, 64): optional single leading sign, ASCII decimal
digits, value within the int64 range; anything else is an error (`none`). -/
def parseInt64 (s : List Char) : Option Int :=
  match s with
  | '+' :: rest =>
    (digitsToNat? rest).bind (fun n => if n ≤ 2 ^ 63 - 1 then some (Int.ofNat n) else none)
  | '-' :: rest =>
    (digitsToNat? rest).bind (fun n => if n ≤ 2 ^ 63 then some (-(Int.ofNat n)) else none)
  | _ =>
    (digitsToNat? s).bind (fun n => if n ≤ 2 ^ 63 - 1 then some (Int.ofNat n) else none)

/-- Capture-name character for regexp replacement templates: ASCII letter,
digit or underscore. (Go also admits non-ASCII Unicode letters and digits; the
repository's documents are ASCII, so only the ASCII classes are modelled.) -/
def isNameChar (c : Char) : Bool :=
  (97 ≤ c.toNat && c.toNat ≤ 122) || (65 ≤ c.toNat && c.toNat ≤ 90) ||
    (48 ≤ c.toNat && c.toNat ≤ 57) || c == '_'

/-- Substitution for one template variable: the compiled placeholder patterns
have exactly one group, group 0 (the whole match), and no named groups, and Go
disallows leading zeros in a group number — so only the name "0" produces
text (the matched placeholder itself); every other name produces nothing. -/
def groupSub (mtch nm : List Char) : List Char :=
  if nm = ['0'] then mtch else []

/-- Left brace / right brace characters (written by code to keep brace
characters out of string literals). -/
def lbrace : Char := Char.ofNat 123

def rbrace : Char := Char.ofNat 125

/-- Structural-recursion worker for expandT (fuel as in goSplitF). -/
def expandTF (mtch : List Char) : Nat → List Char → List Char
  | _, [] => []
  | _, [c] => if c = '$' then ['$'] else [c]
  | 0, s => s
  | fuel + 1, c :: c2 :: r2 =>
    if c = '$' then
      if c2 = '$' then '$' :: expandTF mtch fuel r2
      else if c2 = lbrace then
        let nm := r2.takeWhile isNameChar
        let r3 := r2.drop nm.length
        if nm ≠ [] ∧ r3.head? = some rbrace then
          groupSub mtch nm ++ expandTF mtch fuel r3.tail
        else '$' :: expandTF mtch fuel (c2 :: r2)
      else
        let nm := (c2 :: r2).takeWhile isNameChar
        if nm = [] then '$' :: expandTF mtch fuel (c2 :: r2)
        else groupSub mtch nm ++ expandTF mtch fuel ((c2 :: r2).drop nm.length)
    else c :: expandTF mtch fuel (c2 :: r2)

/-- regexp replacement-template expansion (regexp.Regexp.Expand) against a
match of text `mtch`: "$$" is a literal dollar, "$name" / "$\x7bname\x7d"
insert the group (see groupSub), a malformed "$" is kept literally. -/
def expandT (mtch : List Char) (s : List Char) : List Char :=
  expandTF mtch s.length s

/-- regexp ReplaceAll for the literal two-character pattern `a b` with
replacement template `w`: leftmost non-overlapping matches, scanning resumes
after each replacement. Every match of a literal pattern is the same text, so
the expanded replacement is the same for every match and is precomputed by the
callers. -/
def replaceAll2 (a b : Char) (w : List Char) : List Char → List Char
  | [] => []
  | [c] => [c]
  | c :: c2 :: rest =>
    if c = a ∧ c2 = b then w ++ replaceAll2 a b w rest
    else c :: replaceAll2 a b w (c2 :: rest)

/-- Errors and runtime crashes (Go panics) the decode can produce. -/
inductive Fault
  /-- "invalid deck": the encoded document has no "||" separator. -/
  | invalidDeck
  /-- a strconv.ParseInt failure on an index-list field (InvalidIndex). -/
  | badInt
  /-- "card index out of bounds" (IndexOutOfRange). -/
  | idxOut
  /-- "card not found" from the formatting loop of deck.parse. -/
  | notFound
  /-- runtime index-out-of-range crash reading parts[1] of a document with no
  ";;;" separator. -/
  | splitCrash
  /-- runtime index-out-of-range crash indexing the 88-entry wildcard matcher
  table with a longer dictionary. -/
  | regexCrash
deriving DecidableEq, Repr

/-- Whether a Fault models a Go runtime panic rather than a returned error. -/
def Fault.isCrash : Fault → Bool
  | .splitCrash => true
  | .regexCrash => true
  | _ => false

/-- One substitution pass for dictionary index i: replace every "&" ++ symbol i
by dictionary word i (expanded as a replacement template). -/
def pass (dict : List (List Char)) (i : Nat) (t : List Char) : List Char :=
  replaceAll2 '&' (wc i) (expandT ['&', wc i] (dict.getD i [])) t

/-- The substitution loop of decompress/decompressBytes, highest dictionary
index first: `passesDown dict n t` runs passes n-1, n-2, ..., 0 on t. -/
def passesDown (dict : List (List Char)) : Nat → List Char → List Char
  | 0, t => t
  | n + 1, t => passesDown dict n (pass dict n t)

/-- decompressBytes: split on "||" (fewer than two parts is "invalid deck"),
split the first part on "|" into the dictionary, then substitute placeholders
from the highest dictionary index down on the second part. The loop's first
table access is index len(dict)-1, so a dictionary longer than the 88-entry
matcher table crashes before any pass runs. -/
def decompressBytes (s : List Char) : Except Fault (List Char) :=
  match goSplit '|' ['|'] s with
  | p0 :: p1 :: _ =>
    let dict := goSplit '|' [] p0
    if dict.length ≤ WILDCARDS.length then .ok (passesDown dict dict.length p1)
    else .error .regexCrash
  | _ => .error .invalidDeck

/-- decompress: the string twin of decompressBytes; the Go bodies are the same
algorithm on string values instead of byte slices. -/
def decompress (s : List Char) : Except Fault (List Char) :=
  match goSplit '|' ['|'] s with
  | p0 :: p1 :: _ =>
    let dict := goSplit '|' [] p0
    if dict.length ≤ WILDCARDS.length then .ok (passesDown dict dict.length p1)
    else .error .regexCrash
  | _ => .error .invalidDeck

/-- parseCardBytes: the card section up to (not including) the first ";", or
the whole section when there is none. -/
def parseCardBytes (cardSection : List Char) : List Char :=
  cardSection.takeWhile (fun c => c != ';')

/-- parseCard: string twin of parseCardBytes. -/
def parseCard (cardSection : List Char) : List Char :=
  cardSection.takeWhile (fun c => c != ';')

/-- readDelimitedBytes delivers no segments for an empty input or the single
byte '-'; otherwise it walks the manual leftmost-separator loop. Callers fold
their callback over these segments, stopping at the first error. -/
def readDelimSegs (d : Char) (ds : List Char) (s : List Char) : List (List Char) :=
  if s = [] ∨ s = ['-'] then [] else goSegs d ds s

/-- Lookup in the insertion-ordered association-list model of a Go
map[string]int. -/
def lookupCt (m : List (List Char × Nat)) (k : List Char) : Option Nat :=
  match m with
  | [] => none
  | (k2, v) :: rest => if k2 = k then some v else lookupCt rest k

/-- `m[k] = m[k] + 1` on the association-list model (a missing key reads as 0,
so it is inserted with count 1, at the end — insertion order). -/
def bumpCt (m : List (List Char × Nat)) (k : List Char) : List (List Char × Nat) :=
  match m with
  | [] => [(k, 1)]
  | (k2, v) :: rest => if k2 = k then (k2, v + 1) :: rest else (k2, v) :: bumpCt rest k

/-- The body of deck.parse's index callback: parse the field as an int64, check
0 ≤ idx < len(cards), take the card name (first ";"-field of the section),
skip empty names, and count the occurrence, remembering first-seen order in
the unique-card list. -/
def parseIdxStep (cards : List (List Char))
    (st : List (List Char) × List (List Char × Nat)) (seg : List Char) :
    Except Fault (List (List Char) × List (List Char × Nat)) :=
  match parseInt64 seg with
  | none => .error .badInt
  | some v =>
    if v < 0 ∨ (cards.length : Int) ≤ v then .error .idxOut
    else
      let card := parseCardBytes (cards.getD v.toNat [])
      if card = [] then .ok st
      else
        match lookupCt st.2 card with
        | some _ => .ok (st.1, bumpCt st.2 card)
        | none => .ok (st.1 ++ [card], bumpCt st.2 card)

/-- readDelimitedBytes's fold of the index callback: abort on the first
error. -/
def foldSegs (cards : List (List Char)) :
    List (List Char) → List (List Char) × List (List Char × Nat) →
      Except Fault (List (List Char) × List (List Char × Nat))
  | [], st => .ok st
  | seg :: rest, st =>
    match parseIdxStep cards st seg with
    | .error e => .error e
    | .ok st2 => foldSegs cards rest st2

/-- The literal card name that sorts last. -/
def abName : List Char := "Ascender's Bane".toList

/-- Go byte-wise lexicographic string comparison (string <). -/
def strLt : List Char → List Char → Bool
  | [], [] => false
  | [], _ :: _ => true
  | _ :: _, [] => false
  | c :: cs, d :: es => if c = d then strLt cs es else decide (c < d)

/-- The comparator handed to slices.SortFunc in deck.parse and in
getStableOutput: "Ascender's Bane" sorts after every other key; any other pair
is ordered byte-wise lexicographically. -/
def cardLess (i j : List Char) : Bool :=
  if i = abName then false
  else if j = abName then true
  else strLt i j

/-- Insert into a cardLess-sorted list. -/
def insertLe (x : List Char) : List (List Char) → List (List Char)
  | [] => [x]
  | y :: rest => if cardLess x y then x :: y :: rest else y :: insertLe x rest

/-- Sorting model of slices.SortFunc cardLess. The decoded unique-card lists
contain no duplicate, and cardLess is a strict total order on distinct keys,
so every comparison sort — Go's pdqsort included — produces this one sorted
permutation. -/
def sortCards : List (List Char) → List (List Char)
  | [] => []
  | x :: rest => insertLe x (sortCards rest)

/-- Decimal rendering of a count (strconv.AppendInt / fmt.Sprint on a
non-negative int64). -/
def natDigits (n : Nat) : List Char := (Nat.repr n).toList

/-- The formatting loop of deck.parse over the sorted unique cards: append the
name, then — only when its count is positive — " x", the decimal count and a
newline. A name missing from the count map stops the loop with "card not
found", keeping the bytes appended so far. -/
def formatFold (m : List (List Char × Nat)) :
    List (List Char) → List Char → List Char × Option Fault
  | [], acc => (acc, none)
  | card :: rest, acc =>
    let acc2 := acc ++ card
    match lookupCt m card with
    | none => (acc2, some .notFound)
    | some ct =>
      formatFold m rest (acc2 ++ (if 0 < ct then ' ' :: 'x' :: natDigits ct ++ ['\n'] else []))

/-- Outcome of running a Go function that can panic: `crash` models a runtime
panic propagating out, `ret` carries the deck buffer after the call together
with the returned error (if any). -/
inductive PRes
  | crash (e : Fault)
  | ret (buf : List Char) (err : Option Fault)
deriving DecidableEq, Repr

/-- deck.parse on the deck's raw buffer: decompress, split the document on
";;;" (reading parts[1] of a separator-less document crashes), read the card
table, fold the index list into counts, then format into the new buffer. On a
returned error before formatting, the buffer is left holding the raw bytes. -/
def deckParse (buf : List Char) : PRes :=
  match decompressBytes buf with
  | .error e => if e.isCrash then .crash e else .ret buf (some e)
  | .ok doc =>
    match goSplit ';' [';', ';'] doc with
    | p0 :: p1 :: _ =>
      let cards := readDelimSegs ';' [';'] p1
      match foldSegs cards (readDelimSegs ',' [] p0) ([], []) with
      | .error e => .ret buf (some e)
      | .ok (uniq, counts) =>
        match formatFold counts (sortCards uniq) [] with
        | (buf2, some e) => .ret buf2 (some e)
        | (buf2, none) => .ret buf2 none
    | _ => .crash .splitCrash

/-- A deck: the buffer (raw bytes before the decode, the report after a
successful one) and the sync.Once completion flag. -/
structure DeckSt where
  buf : List Char
  done : Bool
deriving DecidableEq, Repr

/-- deck.Bytes: sync.Once runs parse only when the flag is still clear, and
marks the flag even when parse panics; afterwards it returns the current
buffer together with the `err` local — which later calls never set again, so
they return a nil error even when the first parse failed. -/
def deckBytes (st : DeckSt) : DeckSt × PRes :=
  if st.done then (st, .ret st.buf none)
  else
    match deckParse st.buf with
    | .crash e => ({ buf := st.buf, done := true }, .crash e)
    | .ret b err => ({ buf := b, done := true }, .ret b err)

/-- The deck state after n calls to Bytes on a fresh deck holding s. -/
def stateAfter (s : List Char) : Nat → DeckSt
  | 0 => { buf := s, done := false }
  | n + 1 => (deckBytes (stateAfter s n)).1

/-- The outcome of call number n+1 to Bytes on a fresh deck holding s. -/
def nthCall (s : List Char) (n : Nat) : PRes := (deckBytes (stateAfter s n)).2

/-- splitDoubleSemicolonArray: "-" is the empty table; anything else —
including the empty string — is strings.Split on ";;" (so the empty string
yields one empty entry, unlike readDelimitedBytes). -/
def splitDoubleSemicolonArray (s : List Char) : List (List Char) :=
  if s = ['-'] then [] else goSplit ';' [';'] s

/-- parseCards: display name of every table entry. -/
def parseCards (secs : List (List Char)) : List (List Char) :=
  secs.map parseCard

/-- Field-by-field int64 parsing of the index segments, first error wins. -/
def parseIntsSegs : List (List Char) → Except Fault (List Int)
  | [] => .ok []
  | seg :: rest =>
    match parseInt64 seg with
    | none => .error .badInt
    | some v =>
      match parseIntsSegs rest with
      | .error e => .error e
      | .ok vs => .ok (v :: vs)

/-- parseCommaDelimitedIntegerArray: "-" is the empty list; otherwise the
manual comma loop with strconv.ParseInt on each field. -/
def parseCommaDelimitedIntegerArray (s : List Char) : Except Fault (List Int) :=
  if s = ['-'] then .ok [] else parseIntsSegs (goSegs ',' [] s)

/-- The counting loop of decompressDeck: bounds-check each index against the
parsed card-name table and increment the name's count. -/
def aggIdx (cards : List (List Char)) :
    List Int → List (List Char × Nat) → Except Fault (List (List Char × Nat))
  | [], m => .ok m
  | idx :: rest, m =>
    if idx < 0 ∨ (cards.length : Int) ≤ idx then .error .idxOut
    else aggIdx cards rest (bumpCt m (cards.getD idx.toNat []))

/-- decompressDeck: decompress, split on ";;;", parse the comma-separated
index list of parts[0] (errors there surface before parts[1] is touched),
then read the card table of parts[1] — a document with no ";;;" separator
crashes right here — and count. -/
def decompressDeck (s : List Char) : Except Fault (List (List Char × Nat)) :=
  match decompress s with
  | .error e => .error e
  | .ok doc =>
    match goSplit ';' [';', ';'] doc with
    | p0 :: partsRest =>
      match parseCommaDelimitedIntegerArray p0 with
      | .error e => .error e
      | .ok d =>
        match partsRest with
        | p1 :: _ => aggIdx (parseCards (splitDoubleSemicolonArray p1)) d []
        | [] => .error .splitCrash
    | [] => .error .invalidDeck

/-- getStableOutput from deck_test.go: sort the map's keys with cardLess and
render "name xCOUNT\n" for every key, with no zero-count guard. The keys are
collected here in insertion order; Go's map range order is arbitrary, and the
sort makes the built string independent of it. -/
def getStableOutput (m : List (List Char × Nat)) : List Char :=
  (sortCards (m.map Prod.fst)).foldl
    (fun acc k => acc ++ k ++ ' ' :: 'x' :: natDigits ((lookupCt m k).getD 0) ++ ['\n']) []

/-- Executable occurrence test: the two-character string a b appears somewhere
in the list (used to talk about placeholders surviving in a document). -/
def hasPat (a b : Char) : List Char → Bool
  | [] => false
  | [_] => false
  | c :: c2 :: rest => if c = a ∧ c2 = b then true else hasPat a b (c2 :: rest)

instance {ε α : Type} [DecidableEq ε] [DecidableEq α] : DecidableEq (Except ε α) := fun
  | .ok a, .ok b =>
    if h : a = b then .isTrue (by rw [h]) else .isFalse (by intro he; cases he; exact h rfl)
  | .ok _, .error _ => .isFalse (by intro h; cases h)
  | .error _, .ok _ => .isFalse (by intro h; cases h)
  | .error e, .error f =>
    if h : e = f then .isTrue (by rw [h]) else .isFalse (by intro he; cases he; exact h rfl)

/-! Concrete documents used by the claims. -/

/-- The worked example of the spec and of the repository's tests. -/
def exDeck : List Char := "card|junk||0,1,1,0,2,0;;;&01;&1;x;;&02;&1;y;;&03;&1;z".toList

/-- The report the worked example must render. -/
def exReport : List Char := "card1 x3\ncard2 x2\ncard3 x1\n".toList

/-- The spec's empty-dictionary document whose body has no ";;;" separator. -/
def exNoSep : List Char := "||I love love slay the relics and slay the spire".toList

/-- A separator-less document whose first part parses as a comma list. -/
def exNoSep2 : List Char := "||1,2".toList

/-- Index 0 against an empty table text (the table part of the body is ""). -/
def exEmptyTable : List Char := "||0;;;".toList

/-- Dictionary ["&", "&0"]: word 1 holds a back-reference to word 0, and word 0
ends in the escape character, so substituting it re-creates the "&0"
placeholder after pass 0 has already run. -/
def exBackRef : List Char := "&|&0||&10".toList

/-- A document whose dictionary has 89 one-character words: one more than the
88-entry matcher table. -/
def exDict89 : List Char := (String.intercalate "|" (List.replicate 89 "a") ++ "||x").toList

/-! Fuel irrelevance and unfolding equations for the split workers. -/

theorem goSplitF_fuel (d : Char) (ds : List Char) :
    ∀ f1 : Nat, ∀ s : List Char, ∀ f2 : Nat, s.length ≤ f1 → s.length ≤ f2 →
      goSplitF d ds f1 s = goSplitF d ds f2 s := by
  intro f1
  induction f1 with
  | zero =>
    intro s f2 h1 _
    cases s with
    | nil => cases f2 <;> rfl
    | cons c rest => simp at h1
  | succ f ih =>
    intro s f2 h1 h2
    cases s with
    | nil => cases f2 <;> rfl
    | cons c rest =>
      cases f2 with
      | zero => simp at h2
      | succ f2' =>
        simp only [List.length_cons] at h1 h2
        simp only [goSplitF]
        by_cases hp : (d :: ds).isPrefixOf (c :: rest) = true
        · rw [if_pos hp, if_pos hp]
          have hd : (rest.drop ds.length).length ≤ f := by
            simp only [List.length_drop]; omega
          have hd2 : (rest.drop ds.length).length ≤ f2' := by
            simp only [List.length_drop]; omega
          rw [ih _ _ hd hd2]
        · rw [if_neg hp, if_neg hp]
          rw [ih rest f2' (by omega) (by omega)]

theorem goSplit_cons (d : Char) (ds : List Char) (c : Char) (rest : List Char) :
    goSplit d ds (c :: rest) =
      if (d :: ds).isPrefixOf (c :: rest) then [] :: goSplit d ds (rest.drop ds.length)
      else (goSplit d ds rest).modifyHead (c :: ·) := by
  show goSplitF d ds (c :: rest).length (c :: rest) = _
  simp only [List.length_cons, goSplitF]
  by_cases hp : (d :: ds).isPrefixOf (c :: rest) = true
  · rw [if_pos hp, if_pos hp]
    rw [goSplitF_fuel d ds rest.length (rest.drop ds.length) (rest.drop ds.length).length
      (by simp only [List.length_drop]; omega) le_rfl]
    rfl
  · rw [if_neg hp, if_neg hp]
    rfl

theorem goSplit_nil (d : Char) (ds : List Char) : goSplit d ds [] = [[]] := rfl

theorem goSegsF_fuel (d : Char) (ds : List Char) :
    ∀ f1 : Nat, ∀ s : List Char, ∀ f2 : Nat, s.length ≤ f1 → s.length ≤ f2 →
      goSegsF d ds f1 s = goSegsF d ds f2 s := by
  intro f1
  induction f1 with
  | zero =>
    intro s f2 h1 _
    cases s with
    | nil => cases f2 <;> rfl
    | cons c rest => simp at h1
  | succ f ih =>
    intro s f2 h1 h2
    cases s with
    | nil => cases f2 <;> rfl
    | cons c rest =>
      cases f2 with
      | zero => simp at h2
      | succ f2' =>
        simp only [List.length_cons] at h1 h2
        simp only [goSegsF]
        by_cases hp : (d :: ds).isPrefixOf (c :: rest) = true
        · rw [if_pos hp, if_pos hp]
          have hd : (rest.drop ds.length).length ≤ f := by
            simp only [List.length_drop]; omega
          have hd2 : (rest.drop ds.length).length ≤ f2' := by
            simp only [List.length_drop]; omega
          rw [ih _ _ hd hd2]
        · rw [if_neg hp, if_neg hp]
          rw [ih rest f2' (by omega) (by omega)]

theorem goSegs_cons (d : Char) (ds : List Char) (c : Char) (rest : List Char) :
    goSegs d ds (c :: rest) =
      if (d :: ds).isPrefixOf (c :: rest) then [] :: goSegs d ds (rest.drop ds.length)
      else
        match goSegs d ds rest with
        | [] => [[c]]
        | h :: t => (c :: h) :: t := by
  show goSegsF d ds (c :: rest).length (c :: rest) = _
  simp only [List.length_cons, goSegsF]
  by_cases hp : (d :: ds).isPrefixOf (c :: rest) = true
  · rw [if_pos hp, if_pos hp]
    rw [goSegsF_fuel d ds rest.length (rest.drop ds.length) (rest.drop ds.length).length
      (by simp only [List.length_drop]; omega) le_rfl]
    rfl
  · rw [if_neg hp, if_neg hp]
    rfl

theorem goSegs_nil (d : Char) (ds : List Char) : goSegs d ds [] = [] := rfl

/-- goSegs yields at least one segment on a non-empty input. -/
theorem goSegs_cons_ne_nil (d : Char) (ds : List Char) (c : Char) (rest : List Char) :
    goSegs d ds (c :: rest) ≠ [] := by
  rw [goSegs_cons]
  by_cases hp : (d :: ds).isPrefixOf (c :: rest) = true
  · simp [hp]
  · rw [if_neg hp]
    cases hs : goSegs d ds rest with
    | nil => simp
    | cons h t => simp

/-- goSplit and goSegs walk the same separator positions; they differ only in
that a document consumed exactly to its end leaves goSplit with one extra
trailing empty part (this also covers the empty document). -/
theorem goSplit_eq_goSegs_or (d : Char) (ds : List Char) :
    ∀ s : List Char, goSplit d ds s = goSegs d ds s ∨
      goSplit d ds s = goSegs d ds s ++ [[]] := by
  suffices H : ∀ (n : Nat) (s : List Char), s.length ≤ n →
      (goSplit d ds s = goSegs d ds s ∨ goSplit d ds s = goSegs d ds s ++ [[]]) by
    intro s; exact H s.length s le_rfl
  intro n
  induction n with
  | zero =>
    intro s h
    cases s with
    | nil => right; rfl
    | cons c rest => simp at h
  | succ n ih =>
    intro s h
    cases s with
    | nil => right; rfl
    | cons c rest =>
      simp only [List.length_cons] at h
      rw [goSplit_cons, goSegs_cons]
      by_cases hp : (d :: ds).isPrefixOf (c :: rest) = true
      · rw [if_pos hp, if_pos hp]
        rcases ih (rest.drop ds.length) (by simp only [List.length_drop]; omega) with h2 | h2
        · left; rw [h2]
        · right; rw [h2]; rfl
      · rw [if_neg hp, if_neg hp]
        rcases ih rest (by omega) with h2 | h2
        · cases hs : goSegs d ds rest with
          | nil =>
            rw [hs] at h2
            cases rest with
            | nil => exact absurd h2 (by simp [goSplit_nil])
            | cons c2 rest2 => exact absurd hs (goSegs_cons_ne_nil d ds c2 rest2)
          | cons sh st =>
            left; rw [h2, hs]; rfl
        · cases hs : goSegs d ds rest with
          | nil =>
            rw [hs] at h2
            left; rw [h2]; rfl
          | cons sh st =>
            rw [hs] at h2
            right; rw [h2]; rfl

/-- goSplit always produces at least one part. -/
theorem goSplit_ne_nil (d : Char) (ds : List Char) (s : List Char) :
    goSplit d ds s ≠ [] := by
  cases s with
  | nil => simp [goSplit_nil]
  | cons c rest =>
    rcases goSplit_eq_goSegs_or d ds (c :: rest) with h | h
    · rw [h]; exact goSegs_cons_ne_nil d ds c rest
    · rw [h]; simp

/-! Claim theorems: concrete (closed) results. -/

/-- Claim C1 (code bug): the claim — and the code's own comment "if this fails
once, it will fail every time" — say a failed decode returns the same error on
every later Bytes() call. In the code, err is only assigned inside the
sync.Once closure, which never runs again: on the empty document the first
call returns the "invalid deck" error, and the second call returns the raw
buffer with a nil error. -/
theorem c1_error_not_sticky :
    nthCall [] 0 = .ret [] (some .invalidDeck) ∧ nthCall [] 1 = .ret [] none := by
  decide

/-- Claim C2 (code bug): a document that decompresses fine but has no ";;;"
separator should surface a MalformedDocument-style error value. Neither
pipeline returns one: deck.parse indexes parts[1] of a one-part split and
crashes; decompressDeck either fails earlier with a ParseInt (InvalidIndex
style) error on the whole body, or — when the body happens to parse as a comma
list — crashes on parts[1] as well. -/
theorem c2_missing_separator_crashes :
    decompressBytes exNoSep = .ok "I love love slay the relics and slay the spire".toList ∧
    deckParse exNoSep = .crash .splitCrash ∧
    decompressDeck exNoSep = .error .badInt ∧
    decompressDeck exNoSep2 = .error .splitCrash ∧
    Fault.splitCrash.isCrash = true ∧ Fault.badInt.isCrash = false := by
  decide

/-- Claim C4: the example document decodes to the multiset card1 ↦ 3,
card2 ↦ 2, card3 ↦ 1, and the full byte pipeline renders exactly
"card1 x3\ncard2 x2\ncard3 x1\n". -/
theorem c4_example_decode :
    decompressDeck exDeck =
      .ok [("card1".toList, 3), ("card2".toList, 2), ("card3".toList, 1)] ∧
    deckParse exDeck = .ret exReport none := by
  decide

/-- Claim C3, counterexample: with empty table text and the non-empty index
list "0", decompressDeck does not fail — splitDoubleSemicolonArray turns ""
into one empty entry, so index 0 is in bounds and the decode succeeds with the
multiset 【"" ↦ 1】. (deck.parse does fail there, as the claim says.) -/
theorem c3_empty_table_string_pipeline_succeeds :
    decompressDeck exEmptyTable = .ok [([], 1)] ∧
    deckParse exEmptyTable = .ret exEmptyTable (some .idxOut) := by
  decide

/-- Claim C5, counterexample: dictionary word 1 is "&0", holding the
placeholder of word 0 (0 < 1), yet the decompressed output of the document
"&|&0||&10" is the literal text "&0" — the back-reference is not expanded,
because substituting word 0 ("&", which ends in the escape character)
re-creates the placeholder after pass 0 already ran. -/
theorem c5_backref_not_fully_expanded :
    (goSplit '|' [] "&|&0".toList).getD 1 [] = ['&', wc 0] ∧
    decompress exBackRef = .ok ['&', wc 0] ∧
    hasPat '&' (wc 0) ['&', wc 0] = true := by
  decide

/-- Claim C7, counterexample: a key with count 0 contributes only its name with
no newline — not "name\n" as the claim states: the zero-count branch skips the
entire " x<count>\n" suffix, newline included. -/
theorem c7_zero_count_drops_newline :
    formatFold [("a".toList, 0)] (sortCards ["a".toList]) [] = ("a".toList, none) ∧
    ("a".toList : List Char) ≠ "a\n".toList := by
  decide

set_option maxRecDepth 4000 in
/-- Claim C9, counterexample: the WILDCARDS alphabet holds 88 symbols, not 90;
a dictionary of 89 words — allowed by the claim's "at most 90" bound — makes
decompressBytes crash on the matcher table before any substitution runs. -/
theorem c9_dict_89_crashes :
    WILDCARDS.length = 88 ∧
    (goSplit '|' [] ((goSplit '|' ['|'] exDict89).headD [])).length = 89 ∧
    decompressBytes exDict89 = .error .regexCrash ∧
    Fault.regexCrash.isCrash = true := by
  decide

/-- Claim C10, counterexample: on "||0;;;" the two pipelines disagree — the
byte pipeline fails with "card index out of bounds" while the string pipeline
succeeds and renders " x1\n". -/
theorem c10_pipelines_disagree :
    decompressDeck exEmptyTable = .ok [([], 1)] ∧
    getStableOutput [([], 1)] = " x1\n".toList ∧
    deckParse exEmptyTable = .ret exEmptyTable (some .idxOut) := by
  decide

/-! Claim C9 (amended), claim C8, claim C7 (amended). -/

/-- Claim C9 (amended: the WILDCARDS alphabet holds 88 symbols, not 90): for
every encoded input containing "||" whose dictionary part splits into at most
88 words, every matcher-table access of the substitution loop is in bounds, so
decompression completes without the out-of-bounds crash and returns the
substituted body. -/
theorem c9_dict_within_table (s p0 p1 : List Char) (rest : List (List Char))
    (hs : goSplit '|' ['|'] s = p0 :: p1 :: rest)
    (hlen : (goSplit '|' [] p0).length ≤ 88) :
    decompressBytes s =
      .ok (passesDown (goSplit '|' [] p0) (goSplit '|' [] p0).length p1) := by
  unfold decompressBytes
  rw [hs]
  have hw : WILDCARDS.length = 88 := by decide
  dsimp only
  rw [if_pos (by rw [hw]; exact hlen)]

/-- Witness for c9_dict_within_table at the worked example (two dictionary
words). -/
theorem c9_dict_within_table_witness :
    decompressBytes exDeck =
      .ok (passesDown (goSplit '|' [] "card|junk".toList)
        (goSplit '|' [] "card|junk".toList).length
        "0,1,1,0,2,0;;;&01;&1;x;;&02;&1;y;;&03;&1;z".toList) :=
  c9_dict_within_table exDeck "card|junk".toList
    "0,1,1,0,2,0;;;&01;&1;x;;&02;&1;y;;&03;&1;z".toList [] (by decide) (by decide)

theorem deckBytes_of_done (st : DeckSt) (h : st.done = true) :
    deckBytes st = (st, .ret st.buf none) := by
  unfold deckBytes
  rw [if_pos h]

theorem deckBytes_fst_done (st : DeckSt) : (deckBytes st).1.done = true := by
  unfold deckBytes
  by_cases h : st.done = true
  · rw [if_pos h]; exact h
  · rw [if_neg h]
    cases hp : deckParse st.buf <;> rfl

/-- After the first Bytes call the deck state is frozen. -/
theorem stateAfter_stable (s : List Char) (n : Nat) :
    stateAfter s (n + 1) = stateAfter s 1 := by
  induction n with
  | zero => rfl
  | succ n ih =>
    have hd : (stateAfter s (n + 1)).done = true := deckBytes_fst_done _
    show (deckBytes (stateAfter s (n + 1))).1 = _
    rw [deckBytes_of_done _ hd]
    exact ih

theorem deckBytes_of_ret (st : DeckSt) (hd : ¬ st.done = true) (b : List Char)
    (e : Option Fault) (hp : deckParse st.buf = .ret b e) :
    deckBytes st = ({ buf := b, done := true }, .ret b e) := by
  unfold deckBytes
  rw [if_neg hd, hp]

theorem deckBytes_of_crash (st : DeckSt) (hd : ¬ st.done = true) (e : Fault)
    (hp : deckParse st.buf = .crash e) :
    deckBytes st = ({ buf := st.buf, done := true }, .crash e) := by
  unfold deckBytes
  rw [if_neg hd, hp]

/-- Any returning Bytes call hands back exactly the buffer the deck holds
after it. -/
theorem nthCall_ret_buf (s : List Char) (n : Nat) (b : List Char) (e : Option Fault)
    (h : nthCall s n = .ret b e) : b = (stateAfter s (n + 1)).buf := by
  unfold nthCall at h
  show b = (deckBytes (stateAfter s n)).1.buf
  by_cases hd : (stateAfter s n).done = true
  · rw [deckBytes_of_done _ hd] at h ⊢
    cases h
    rfl
  · cases hp : deckParse (stateAfter s n).buf with
    | crash e2 =>
      rw [deckBytes_of_crash _ hd e2 hp] at h
      dsimp only at h
      cases h
    | ret b2 e2 =>
      rw [deckBytes_of_ret _ hd b2 e2 hp] at h ⊢
      dsimp only at h ⊢
      cases h
      rfl

/-- Claim C8: the published bytes are deterministic — any two Bytes calls on
one deck that return (at any positions in the call sequence) hand back the
same byte sequence: the buffer is only ever replaced by the single sync.Once
decode, and every return reads that frozen buffer. -/
theorem c8_bytes_deterministic (s : List Char) (n m : Nat) (b b' : List Char)
    (e e' : Option Fault) (hn : nthCall s n = .ret b e) (hm : nthCall s m = .ret b' e') :
    b = b' := by
  have h1 := nthCall_ret_buf s n b e hn
  have h2 := nthCall_ret_buf s m b' e' hm
  rw [stateAfter_stable] at h1 h2
  rw [h1, h2]

/-- Witness for c8_bytes_deterministic: calls 1 and 4 on the worked example. -/
theorem c8_bytes_deterministic_witness :
    exReport = exReport ∧
    nthCall exDeck 0 = .ret exReport none ∧ nthCall exDeck 3 = .ret exReport none :=
  ⟨c8_bytes_deterministic exDeck 0 3 exReport exReport none none (by decide) (by decide),
    by decide, by decide⟩

/-- The formatting loop, unrolled: with every key present in the map it never
fails, and appends per key its name followed — only for a positive count — by
" x", the decimal count and a newline. -/
theorem formatFold_ok (m : List (List Char × Nat)) :
    ∀ (ks : List (List Char)) (acc : List Char),
      (∀ k ∈ ks, (lookupCt m k).isSome = true) →
      formatFold m ks acc =
        (ks.foldl (fun a k =>
          a ++ k ++ (if 0 < (lookupCt m k).getD 0
            then ' ' :: 'x' :: natDigits ((lookupCt m k).getD 0) ++ ['\n'] else [])) acc,
          none) := by
  intro ks
  induction ks with
  | nil => intro acc _; rfl
  | cons k ks ih =>
    intro acc h
    have hk : (lookupCt m k).isSome = true := h k (by simp)
    cases hc : lookupCt m k with
    | none => rw [hc] at hk; simp at hk
    | some ct =>
      show formatFold m (k :: ks) acc = _
      unfold formatFold
      rw [hc]
      simp only [List.foldl_cons, hc, Option.getD_some]
      rw [ih _ (fun k2 hk2 => h k2 (by simp [hk2]))]

/-- Claim C7 (amended: the zero-count branch emits no newline): when every key
of the list is present in the count map, the formatting step succeeds and the
output is the concatenation, per key, of "<name> x<count>\n" when its count is
positive, and of just "<name>" — no count suffix and no newline — when its
count is zero. -/
theorem c7_format_entries (ks : List (List Char)) (m : List (List Char × Nat))
    (h : ∀ k ∈ ks, (lookupCt m k).isSome = true) :
    formatFold m ks [] =
      ((ks.map (fun k => k ++ (if 0 < (lookupCt m k).getD 0
        then ' ' :: 'x' :: natDigits ((lookupCt m k).getD 0) ++ ['\n'] else []))).foldl
          (· ++ ·) [], none) := by
  rw [formatFold_ok m ks [] h, List.foldl_map]
  simp only [List.append_assoc]

/-- Witness for c7_format_entries: key "b" has count 0 (name only, no
newline), key "a" has count 2 (full " x2" line). -/
theorem c7_format_entries_witness :
    formatFold [("a".toList, 2), ("b".toList, 0)] ["b".toList, "a".toList] [] =
      ("ba x2\n".toList, none) :=
  (c7_format_entries ["b".toList, "a".toList] [("a".toList, 2), ("b".toList, 0)]
    (by decide)).trans (by decide)

/-! Claim C3 (amended) and claim C6. -/

/-- A step of the index callback that passes its bounds check returns ok. -/
theorem parseIdxStep_ok_of_inbounds (cards : List (List Char))
    (st : List (List Char) × List (List Char × Nat)) (seg : List Char) (v : Int)
    (hv : parseInt64 seg = some v) (hin : ¬ (v < 0 ∨ (cards.length : Int) ≤ v)) :
    ∃ st2, parseIdxStep cards st seg = .ok st2 := by
  unfold parseIdxStep
  rw [hv]
  dsimp only
  rw [if_neg hin]
  by_cases hc : parseCardBytes (cards.getD v.toNat []) = []
  · rw [if_pos hc]
    exact ⟨st, rfl⟩
  · rw [if_neg hc]
    cases hl : lookupCt st.2 (parseCardBytes (cards.getD v.toNat [])) with
    | none => exact ⟨_, rfl⟩
    | some _ => exact ⟨_, rfl⟩

/-- If every index field parses and some parsed index is out of bounds for the
card table, the byte pipeline's index fold fails with the out-of-bounds
error. -/
theorem foldSegs_oob (cards : List (List Char)) :
    ∀ (segs : List (List Char)) (ints : List Int)
      (st : List (List Char) × List (List Char × Nat)),
      parseIntsSegs segs = .ok ints →
      (∃ v ∈ ints, v < 0 ∨ (cards.length : Int) ≤ v) →
      foldSegs cards segs st = .error .idxOut := by
  intro segs
  induction segs with
  | nil =>
    intro ints st hp hex
    cases hp
    simp at hex
  | cons seg rest ih =>
    intro ints st hp hex
    unfold parseIntsSegs at hp
    cases hv : parseInt64 seg with
    | none => rw [hv] at hp; cases hp
    | some v =>
      rw [hv] at hp
      dsimp only at hp
      cases hrest : parseIntsSegs rest with
      | error e => rw [hrest] at hp; cases hp
      | ok vs =>
        rw [hrest] at hp
        dsimp only at hp
        cases hp
        unfold foldSegs
        by_cases hoob : v < 0 ∨ (cards.length : Int) ≤ v
        · unfold parseIdxStep
          rw [hv]
          dsimp only
          rw [if_pos hoob]
        · obtain ⟨st2, hst2⟩ := parseIdxStep_ok_of_inbounds cards st seg v hv hoob
          rw [hst2]
          have hex2 : ∃ v2 ∈ vs, v2 < 0 ∨ (cards.length : Int) ≤ v2 := by
            rcases hex with ⟨v2, hmem, hv2⟩
            rcases List.mem_cons.mp hmem with rfl | hmem2
            · exact absurd hv2 hoob
            · exact ⟨v2, hmem2, hv2⟩
          exact ih vs st2 hrest hex2

/-- If some index is out of bounds for the parsed card names, the counting
loop of decompressDeck fails with the out-of-bounds error. -/
theorem aggIdx_oob (cards : List (List Char)) :
    ∀ (ints : List Int) (m : List (List Char × Nat)),
      (∃ v ∈ ints, v < 0 ∨ (cards.length : Int) ≤ v) →
      aggIdx cards ints m = .error .idxOut := by
  intro ints
  induction ints with
  | nil =>
    intro m hex
    simp at hex
  | cons v rest ih =>
    intro m hex
    unfold aggIdx
    by_cases hoob : v < 0 ∨ (cards.length : Int) ≤ v
    · rw [if_pos hoob]
    · rw [if_neg hoob]
      have hex2 : ∃ v2 ∈ rest, v2 < 0 ∨ (cards.length : Int) ≤ v2 := by
        rcases hex with ⟨v2, hmem, hv2⟩
        rcases List.mem_cons.mp hmem with rfl | hmem2
        · exact absurd hv2 hoob
        · exact ⟨v2, hmem2, hv2⟩
      exact ih _ hex2

/-- Claim C3 (amended): in both pipelines every parsed index must satisfy
0 ≤ index < length of that pipeline's card table, else the whole decode fails
with the IndexOutOfRange-style error and no result is produced; in the byte
pipeline ('-' or empty table text, hence an empty table) any non-empty parsed
index list fails this way. In decompressDeck, however, empty table text parses
as one empty-name entry (see the counterexample), so only the '-' table is
empty there and the failure is relative to its own table length. -/
theorem c3_index_bounds :
    (∀ (buf doc p0 p1 : List Char) (rest : List (List Char)) (ints : List Int),
      decompressBytes buf = .ok doc →
      goSplit ';' [';', ';'] doc = p0 :: p1 :: rest →
      parseIntsSegs (readDelimSegs ',' [] p0) = .ok ints →
      (∃ v ∈ ints, v < 0 ∨ ((readDelimSegs ';' [';'] p1).length : Int) ≤ v) →
      deckParse buf = .ret buf (some .idxOut)) ∧
    (∀ (s doc p0 p1 : List Char) (rest : List (List Char)) (ints : List Int),
      decompress s = .ok doc →
      goSplit ';' [';', ';'] doc = p0 :: p1 :: rest →
      parseCommaDelimitedIntegerArray p0 = .ok ints →
      (∃ v ∈ ints, v < 0 ∨ ((parseCards (splitDoubleSemicolonArray p1)).length : Int) ≤ v) →
      decompressDeck s = .error .idxOut) ∧
    (∀ (buf doc p0 p1 : List Char) (rest : List (List Char)) (ints : List Int),
      decompressBytes buf = .ok doc →
      goSplit ';' [';', ';'] doc = p0 :: p1 :: rest →
      (p1 = [] ∨ p1 = ['-']) →
      parseIntsSegs (readDelimSegs ',' [] p0) = .ok ints →
      ints ≠ [] →
      deckParse buf = .ret buf (some .idxOut)) := by
  have hbyte : ∀ (buf doc p0 p1 : List Char) (rest : List (List Char)) (ints : List Int),
      decompressBytes buf = .ok doc →
      goSplit ';' [';', ';'] doc = p0 :: p1 :: rest →
      parseIntsSegs (readDelimSegs ',' [] p0) = .ok ints →
      (∃ v ∈ ints, v < 0 ∨ ((readDelimSegs ';' [';'] p1).length : Int) ≤ v) →
      deckParse buf = .ret buf (some .idxOut) := by
    intro buf doc p0 p1 rest ints hdec hsplit hints hex
    unfold deckParse
    rw [hdec]
    dsimp only
    rw [hsplit]
    dsimp only
    rw [foldSegs_oob _ _ ints _ hints hex]
  refine ⟨hbyte, ?_, ?_⟩
  · intro s doc p0 p1 rest ints hdec hsplit hints hex
    unfold decompressDeck
    rw [hdec]
    dsimp only
    rw [hsplit]
    dsimp only
    rw [hints]
    dsimp only
    rw [aggIdx_oob _ ints [] hex]
  · intro buf doc p0 p1 rest ints hdec hsplit hp1 hints hne
    have hcards : readDelimSegs ';' [';'] p1 = [] := by
      unfold readDelimSegs
      rw [if_pos hp1]
    refine hbyte buf doc p0 p1 rest ints hdec hsplit hints ?_
    cases ints with
    | nil => exact absurd rfl hne
    | cons v vs =>
      refine ⟨v, by simp, ?_⟩
      rw [hcards]
      simp only [List.length_nil, Nat.cast_zero]
      omega

/-- Witness for c3_index_bounds: index 0 against empty table text in the byte
pipeline, and the spec's index-3-of-3 example in the string pipeline. -/
theorem c3_index_bounds_witness :
    deckParse exEmptyTable = .ret exEmptyTable (some .idxOut) ∧
    decompressDeck "card|junk||3;;;&01;&1;x;;&02;&1;y;;&03;&1;z".toList = .error .idxOut :=
  ⟨c3_index_bounds.1 exEmptyTable "0;;;".toList "0".toList [] [] [(0 : Int)]
      (by decide) (by decide) (by decide) (by decide),
    c3_index_bounds.2.1 "card|junk||3;;;&01;&1;x;;&02;&1;y;;&03;&1;z".toList
      "3;;;card1;junk;x;;card2;junk;y;;card3;junk;z".toList "3".toList
      "card1;junk;x;;card2;junk;y;;card3;junk;z".toList [] [(3 : Int)]
      (by decide) (by decide) (by decide) (by decide)⟩

/-- The six arrival orders of the three names of claim C6 all sort the same. -/
theorem sortCards_three (ks : List (List Char))
    (h : ks = ["Zebra".toList, "Apple".toList, abName] ∨
      ks = ["Zebra".toList, abName, "Apple".toList] ∨
      ks = ["Apple".toList, "Zebra".toList, abName] ∨
      ks = ["Apple".toList, abName, "Zebra".toList] ∨
      ks = [abName, "Zebra".toList, "Apple".toList] ∨
      ks = [abName, "Apple".toList, "Zebra".toList]) :
    sortCards ks = ["Apple".toList, "Zebra".toList, abName] := by
  rcases h with rfl | rfl | rfl | rfl | rfl | rfl <;> decide

/-- Claim C6: the sort comparator puts "Ascender's Bane" after every other
key and orders all other keys byte-wise lexicographically; consequently, for
any positive counts of "Zebra", "Apple" and "Ascender's Bane", whatever order
the three names arrived in, the formatter renders the Apple line, then the
Zebra line, then the Ascender's Bane line — independent of the counts. -/
theorem c6_sort_order :
    (∀ x : List Char, x ≠ abName → cardLess x abName = true ∧ cardLess abName x = false) ∧
    (∀ x y : List Char, x ≠ abName → y ≠ abName → cardLess x y = strLt x y) ∧
    (∀ a b c : Nat, 0 < a → 0 < b → 0 < c →
      ∀ ks : List (List Char),
        (ks = ["Zebra".toList, "Apple".toList, abName] ∨
          ks = ["Zebra".toList, abName, "Apple".toList] ∨
          ks = ["Apple".toList, "Zebra".toList, abName] ∨
          ks = ["Apple".toList, abName, "Zebra".toList] ∨
          ks = [abName, "Zebra".toList, "Apple".toList] ∨
          ks = [abName, "Apple".toList, "Zebra".toList]) →
        formatFold [("Zebra".toList, a), ("Apple".toList, b), (abName, c)] (sortCards ks) [] =
          ("Apple".toList ++ (' ' :: 'x' :: natDigits b ++ ['\n']) ++
            "Zebra".toList ++ (' ' :: 'x' :: natDigits a ++ ['\n']) ++
            abName ++ (' ' :: 'x' :: natDigits c ++ ['\n']), none)) := by
  refine ⟨?_, ?_, ?_⟩
  · intro x hx
    constructor
    · unfold cardLess
      rw [if_neg hx, if_pos rfl]
    · unfold cardLess
      rw [if_pos rfl]
  · intro x y hx hy
    unfold cardLess
    rw [if_neg hx, if_neg hy]
  · intro a b c ha hb hc ks hks
    rw [sortCards_three ks hks]
    rw [formatFold_ok _ _ _ (by intro k hk; fin_cases hk <;> rfl)]
    simp only [List.foldl_cons, List.foldl_nil]
    rw [show lookupCt [("Zebra".toList, a), ("Apple".toList, b), (abName, c)] "Apple".toList
        = some b from rfl,
      show lookupCt [("Zebra".toList, a), ("Apple".toList, b), (abName, c)] "Zebra".toList
        = some a from rfl,
      show lookupCt [("Zebra".toList, a), ("Apple".toList, b), (abName, c)] abName
        = some c from rfl]
    simp only [Option.getD_some]
    rw [if_pos hb, if_pos ha, if_pos hc]
    simp only [List.nil_append, List.cons_append, List.append_assoc]

/-- Witness for c6_sort_order at counts 2, 5, 7 and one arrival order. -/
theorem c6_sort_order_witness :
    formatFold [("Zebra".toList, 2), ("Apple".toList, 5), (abName, 7)]
      (sortCards [abName, "Zebra".toList, "Apple".toList]) [] =
      ("Apple".toList ++ (' ' :: 'x' :: natDigits 5 ++ ['\n']) ++
        "Zebra".toList ++ (' ' :: 'x' :: natDigits 2 ++ ['\n']) ++
        abName ++ (' ' :: 'x' :: natDigits 7 ++ ['\n']), none) :=
  c6_sort_order.2.2 2 5 7 (by decide) (by decide) (by decide)
    [abName, "Zebra".toList, "Apple".toList] (by decide)

/-! Occurrence lemmas for two-character placeholders under replaceAll2
(claim C5). -/

theorem hasPat_cons (a b c : Char) (l : List Char) (h : hasPat a b l = true) :
    hasPat a b (c :: l) = true := by
  cases l with
  | nil => cases h
  | cons d l2 =>
    show (if c = a ∧ d = b then true else hasPat a b (d :: l2)) = true
    by_cases hm : c = a ∧ d = b
    · rw [if_pos hm]
    · rw [if_neg hm]
      exact h

theorem hasPat_cons_ne (a b c : Char) (l : List Char) (hc : c ≠ a) :
    hasPat a b (c :: l) = hasPat a b l := by
  cases l with
  | nil => rfl
  | cons d l2 =>
    show (if c = a ∧ d = b then true else hasPat a b (d :: l2)) = hasPat a b (d :: l2)
    rw [if_neg (by intro hm; exact hc hm.1)]

theorem hasPat_tail (a b c : Char) (l : List Char) (h : hasPat a b (c :: l) = false) :
    hasPat a b l = false := by
  cases l with
  | nil => rfl
  | cons d l2 =>
    have h2 : (if c = a ∧ d = b then true else hasPat a b (d :: l2)) = false := h
    by_cases hm : c = a ∧ d = b
    · rw [if_pos hm] at h2; cases h2
    · rw [if_neg hm] at h2; exact h2

theorem hasPat_append_right (a b : Char) (w z : List Char) (h : hasPat a b z = true) :
    hasPat a b (w ++ z) = true := by
  induction w with
  | nil => exact h
  | cons c w2 ih => exact hasPat_cons a b c _ ih

theorem hasPat_append_left (a b : Char) (w z : List Char) (h : hasPat a b w = true) :
    hasPat a b (w ++ z) = true := by
  induction w using hasPat.induct a b with
  | case1 => cases h
  | case2 c => cases h
  | case3 c c2 rest hm =>
    show (if c = a ∧ c2 = b then true else hasPat a b (c2 :: (rest ++ z))) = true
    rw [if_pos hm]
  | case4 c c2 rest hm ih =>
    have h2 : (if c = a ∧ c2 = b then true else hasPat a b (c2 :: rest)) = true := h
    rw [if_neg hm] at h2
    show hasPat a b (c :: ((c2 :: rest) ++ z)) = true
    exact hasPat_cons a b c _ (ih h2)

/-- No occurrence in w, none in z, and the w-to-z boundary cannot form one
(when w ends in the pattern head, z must not start with the pattern tail):
then the concatenation has no occurrence. -/
theorem hasPat_append_false (a b : Char) :
    ∀ (w z : List Char), hasPat a b w = false → hasPat a b z = false →
      (w.getLast? = some a → z.head? ≠ some b) →
      hasPat a b (w ++ z) = false := by
  intro w
  induction w with
  | nil => intro z _ hz _; exact hz
  | cons c w2 ih =>
    intro z hw hz hbd
    cases w2 with
    | nil =>
      cases z with
      | nil => rfl
      | cons d z2 =>
        show (if c = a ∧ d = b then true else hasPat a b (d :: z2)) = false
        have hnm : ¬ (c = a ∧ d = b) := by
          intro hm
          exact hbd (by rw [hm.1]; rfl) (by rw [hm.2]; rfl)
        rw [if_neg hnm]
        exact hz
    | cons c2 w3 =>
      have hcc : ¬ (c = a ∧ c2 = b) := by
        intro hm
        have hw2 : (if c = a ∧ c2 = b then true else hasPat a b (c2 :: w3)) = false := hw
        rw [if_pos hm] at hw2
        cases hw2
      have htl : hasPat a b ((c2 :: w3) ++ z) = false := by
        refine ih z (hasPat_tail a b c _ hw) hz ?_
        intro hlast
        exact hbd (by rw [← hlast]; rfl)
      show (if c = a ∧ c2 = b then true else hasPat a b (c2 :: (w3 ++ z))) = false
      rw [if_neg hcc]
      exact htl

/-- Occurrences of a pattern that shares only its head with the replaced
pattern survive replaceAll2 untouched. -/
theorem replaceAll2_preserves (p q k : Char) (w : List Char)
    (hqp : q ≠ p) (hkp : k ≠ p) (hkq : k ≠ q) :
    ∀ t, hasPat p k t = true → hasPat p k (replaceAll2 p q w t) = true := by
  intro t
  induction t using replaceAll2.induct p q w with
  | case1 => intro h; cases h
  | case2 c => intro h; cases h
  | case3 c c2 rest hm ih =>
    intro h
    show hasPat p k (if c = p ∧ c2 = q then w ++ replaceAll2 p q w rest
      else c :: replaceAll2 p q w (c2 :: rest)) = true
    rw [if_pos hm]
    obtain ⟨hcp, hcq⟩ := hm
    have h1 : (if c = p ∧ c2 = k then true else hasPat p k (c2 :: rest)) = true := h
    rw [if_neg (fun hm2 => hkq (hm2.2.symm.trans hcq))] at h1
    have h2 : hasPat p k rest = true := by
      rw [hasPat_cons_ne p k c2 rest (fun he => hqp (hcq.symm.trans he))] at h1
      exact h1
    exact hasPat_append_right p k w _ (ih h2)
  | case4 c c2 rest hm ih =>
    intro h
    show hasPat p k (if c = p ∧ c2 = q then w ++ replaceAll2 p q w rest
      else c :: replaceAll2 p q w (c2 :: rest)) = true
    rw [if_neg hm]
    have h1 : (if c = p ∧ c2 = k then true else hasPat p k (c2 :: rest)) = true := h
    by_cases hh : c = p ∧ c2 = k
    · have he : replaceAll2 p q w (c2 :: rest) = c2 :: replaceAll2 p q w rest := by
        cases rest with
        | nil => rfl
        | cons r rest2 =>
          show (if c2 = p ∧ r = q then w ++ replaceAll2 p q w rest2
            else c2 :: replaceAll2 p q w (r :: rest2)) = _
          rw [if_neg (fun hm2 => hkp (hh.2.symm.trans hm2.1))]
      rw [he]
      show (if c = p ∧ c2 = k then true else hasPat p k (c2 :: replaceAll2 p q w rest)) = true
      rw [if_pos hh]
    · rw [if_neg hh] at h1
      exact hasPat_cons p k c _ (ih h1)

/-- A match somewhere in the text plants the replacement into the output, so
any pattern occurring in the replacement occurs in the output. -/
theorem replaceAll2_inserts (p q x y : Char) (w : List Char)
    (hw : hasPat x y w = true) :
    ∀ t, hasPat p q t = true → hasPat x y (replaceAll2 p q w t) = true := by
  intro t
  induction t using replaceAll2.induct p q w with
  | case1 => intro h; cases h
  | case2 c => intro h; cases h
  | case3 c c2 rest hm ih =>
    intro h
    show hasPat x y (if c = p ∧ c2 = q then w ++ replaceAll2 p q w rest
      else c :: replaceAll2 p q w (c2 :: rest)) = true
    rw [if_pos hm]
    exact hasPat_append_left x y w _ hw
  | case4 c c2 rest hm ih =>
    intro h
    show hasPat x y (if c = p ∧ c2 = q then w ++ replaceAll2 p q w rest
      else c :: replaceAll2 p q w (c2 :: rest)) = true
    rw [if_neg hm]
    have h1 : (if c = p ∧ c2 = q then true else hasPat p q (c2 :: rest)) = true := h
    rw [if_neg hm] at h1
    exact hasPat_cons x y c _ (ih h1)

/-- With no match at the head of the text, replaceAll2 keeps the head
character. -/
theorem replaceAll2_head_nomatch (p q : Char) (w : List Char) (c : Char) (t : List Char)
    (hnm : ¬ (c = p ∧ t.head? = some q)) :
    (replaceAll2 p q w (c :: t)).head? = some c := by
  cases t with
  | nil => rfl
  | cons d t2 =>
    show (if c = p ∧ d = q then w ++ replaceAll2 p q w t2
      else c :: replaceAll2 p q w (d :: t2)).head? = some c
    rw [if_neg (by intro hm; exact hnm ⟨hm.1, by rw [hm.2]; rfl⟩)]
    rfl

/-- With a match at the head of the text and a non-empty replacement, the
output starts with the replacement's head character. -/
theorem replaceAll2_head_match (p q ww : Char) (w2 : List Char) (c : Char) (t : List Char)
    (hm : c = p ∧ t.head? = some q) :
    (replaceAll2 p q (ww :: w2) (c :: t)).head? = some ww := by
  cases t with
  | nil => exact absurd hm.2 (by simp)
  | cons d t2 =>
    have hd2 : d = q := Option.some.inj hm.2
    show (if c = p ∧ d = q then (ww :: w2) ++ replaceAll2 p q (ww :: w2) t2
      else c :: replaceAll2 p q (ww :: w2) (d :: t2)).head? = some ww
    rw [if_pos ⟨hm.1, hd2⟩]
    rfl

/-- Safety of a replacement word w against re-creating the pattern p q: w is
non-empty, does not start with q, does not end in p, and does not contain the
pattern. -/
def safeW (p q : Char) (w : List Char) : Prop :=
  w ≠ [] ∧ w.head? ≠ some q ∧ w.getLast? ≠ some p ∧ hasPat p q w = false

/-- Under safeW, the pass for the pattern itself removes every occurrence and
creates none. -/
theorem replaceAll2_kills (p q : Char) (w : List Char) (hs : safeW p q w) :
    ∀ t, hasPat p q (replaceAll2 p q w t) = false := by
  obtain ⟨hne, hh, hl, hw⟩ := hs
  intro t
  induction t using replaceAll2.induct p q w with
  | case1 => rfl
  | case2 c => rfl
  | case3 c c2 rest hm ih =>
    show hasPat p q (if c = p ∧ c2 = q then w ++ replaceAll2 p q w rest
      else c :: replaceAll2 p q w (c2 :: rest)) = false
    rw [if_pos hm]
    exact hasPat_append_false p q w _ hw ih (fun hlast => absurd hlast hl)
  | case4 c c2 rest hm ih =>
    show hasPat p q (if c = p ∧ c2 = q then w ++ replaceAll2 p q w rest
      else c :: replaceAll2 p q w (c2 :: rest)) = false
    rw [if_neg hm]
    obtain ⟨ww, w2, rfl⟩ : ∃ ww w2, w = ww :: w2 := by
      cases w with
      | nil => exact absurd rfl hne
      | cons ww w2 => exact ⟨ww, w2, rfl⟩
    cases hz : replaceAll2 p q (ww :: w2) (c2 :: rest) with
    | nil => rfl
    | cons d z2 =>
      show (if c = p ∧ d = q then true else hasPat p q (d :: z2)) = false
      by_cases hcd : c = p ∧ d = q
      · exfalso
        obtain ⟨hcp, hdq⟩ := hcd
        by_cases hm2 : c2 = p ∧ rest.head? = some q
        · have hhead := replaceAll2_head_match p q ww w2 c2 rest hm2
          rw [hz] at hhead
          have hwd : ww = d := (Option.some.inj hhead).symm
          exact hh (by rw [hwd, hdq]; rfl)
        · have hhead := replaceAll2_head_nomatch p q (ww :: w2) c2 rest hm2
          rw [hz] at hhead
          have hc2 : c2 = d := Option.some.inj hhead.symm
          exact hm ⟨hcp, hc2.trans hdq⟩
      · rw [if_neg hcd]
        rw [← hz]
        exact ih

/-- Under safeW for a pattern p q, a pass for a different pattern p q2 cannot
create an occurrence of p q where none existed. -/
theorem replaceAll2_keeps_absent (p q q2 : Char) (w : List Char)
    (hs : safeW p q w) :
    ∀ t, hasPat p q t = false → hasPat p q (replaceAll2 p q2 w t) = false := by
  obtain ⟨hne, hh, hl, hw⟩ := hs
  intro t
  induction t using replaceAll2.induct p q2 w with
  | case1 => intro _; rfl
  | case2 c => intro _; rfl
  | case3 c c2 rest hm ih =>
    intro ht
    show hasPat p q (if c = p ∧ c2 = q2 then w ++ replaceAll2 p q2 w rest
      else c :: replaceAll2 p q2 w (c2 :: rest)) = false
    rw [if_pos hm]
    have htr : hasPat p q rest = false :=
      hasPat_tail p q c2 rest (hasPat_tail p q c _ ht)
    exact hasPat_append_false p q w _ hw (ih htr) (fun hlast => absurd hlast hl)
  | case4 c c2 rest hm ih =>
    intro ht
    show hasPat p q (if c = p ∧ c2 = q2 then w ++ replaceAll2 p q2 w rest
      else c :: replaceAll2 p q2 w (c2 :: rest)) = false
    rw [if_neg hm]
    have htl : hasPat p q (c2 :: rest) = false := hasPat_tail p q c _ ht
    obtain ⟨ww, w2, rfl⟩ : ∃ ww w2, w = ww :: w2 := by
      cases w with
      | nil => exact absurd rfl hne
      | cons ww w2 => exact ⟨ww, w2, rfl⟩
    cases hz : replaceAll2 p q2 (ww :: w2) (c2 :: rest) with
    | nil => rfl
    | cons d z2 =>
      show (if c = p ∧ d = q then true else hasPat p q (d :: z2)) = false
      by_cases hcd : c = p ∧ d = q
      · exfalso
        obtain ⟨hcp, hdq⟩ := hcd
        by_cases hm2 : c2 = p ∧ rest.head? = some q2
        · have hhead := replaceAll2_head_match p q2 ww w2 c2 rest hm2
          rw [hz] at hhead
          have hwd : ww = d := (Option.some.inj hhead).symm
          exact hh (by rw [hwd, hdq]; rfl)
        · have hhead := replaceAll2_head_nomatch p q2 (ww :: w2) c2 rest hm2
          rw [hz] at hhead
          have hc2 : c2 = d := Option.some.inj hhead.symm
          have ht2 : (if c = p ∧ c2 = q then true else hasPat p q (c2 :: rest)) = false := ht
          rw [if_pos ⟨hcp, hc2.trans hdq⟩] at ht2
          cases ht2
      · rw [if_neg hcd]
        rw [← hz]
        exact ih htl

/-! Pass-level lemmas for claim C5. -/

/-- No wildcard symbol is the escape character. -/
theorem wc_ne_amp : ∀ m, m < 88 → wc m ≠ '&' := by decide

set_option maxRecDepth 4000 in
/-- Distinct in-range wildcard indexes carry distinct symbols. -/
theorem wc_inj_ne : ∀ a, a < 88 → ∀ b, b < 88 → a ≠ b → wc a ≠ wc b := by decide

/-- Template expansion is the identity on a replacement without dollars. -/
theorem expandTF_no_dollar (m : List Char) :
    ∀ (fuel : Nat) (w : List Char), '$' ∉ w → expandTF m fuel w = w := by
  intro fuel
  induction fuel with
  | zero =>
    intro w hw
    cases w with
    | nil => rfl
    | cons c w2 =>
      cases w2 with
      | nil =>
        show (if c = '$' then ['$'] else [c]) = [c]
        rw [if_neg (fun h => hw (by rw [← h]; exact List.mem_singleton.mpr rfl))]
      | cons c2 r2 => rfl
  | succ fuel ih =>
    intro w hw
    cases w with
    | nil => rfl
    | cons c w2 =>
      cases w2 with
      | nil =>
        show (if c = '$' then ['$'] else [c]) = [c]
        rw [if_neg (fun h => hw (by rw [← h]; exact List.mem_singleton.mpr rfl))]
      | cons c2 r2 =>
        have hc : ¬ c = '$' := fun h => hw (by rw [← h]; exact List.mem_cons_self c _)
        show (if c = '$' then
            (if c2 = '$' then '$' :: expandTF m fuel r2
             else if c2 = lbrace then
               (if (r2.takeWhile isNameChar) ≠ [] ∧
                  (r2.drop (r2.takeWhile isNameChar).length).head? = some rbrace then
                 groupSub m (r2.takeWhile isNameChar) ++
                   expandTF m fuel (r2.drop (r2.takeWhile isNameChar).length).tail
               else '$' :: expandTF m fuel (c2 :: r2))
             else
               (if (c2 :: r2).takeWhile isNameChar = [] then '$' :: expandTF m fuel (c2 :: r2)
                else groupSub m ((c2 :: r2).takeWhile isNameChar) ++
                  expandTF m fuel ((c2 :: r2).drop ((c2 :: r2).takeWhile isNameChar).length)))
          else c :: expandTF m fuel (c2 :: r2)) = c :: c2 :: r2
        rw [if_neg hc]
        have : expandTF m fuel (c2 :: r2) = c2 :: r2 :=
          ih (c2 :: r2) (fun h2 => hw (List.mem_cons_of_mem c h2))
        rw [this]

/-- expandT is the identity on a dollar-free replacement. -/
theorem expandT_no_dollar (m w : List Char) (hw : '$' ∉ w) : expandT m w = w :=
  expandTF_no_dollar m w.length w hw

/-- Occurrences of a placeholder survive all passes of strictly smaller
wildcard index (processing order: a pass for index j below n runs after any
content is already in place). -/
theorem passesDown_keeps (dict : List (List Char)) (x : Char) (hx : x ≠ '&') :
    ∀ n, n ≤ 88 → (∀ j, j < n → wc j ≠ x) → ∀ t, hasPat '&' x t = true →
      hasPat '&' x (passesDown dict n t) = true := by
  intro n
  induction n with
  | zero => intro _ _ t h; exact h
  | succ n ih =>
    intro hn hj t h
    show hasPat '&' x (passesDown dict n (pass dict n t)) = true
    refine ih (by omega) (fun j hjn => hj j (by omega)) _ ?_
    exact replaceAll2_preserves '&' (wc n) x _ (wc_ne_amp n (by omega)) hx
      (fun he => (hj n (by omega)) he.symm) t h

/-- Absence of a placeholder is preserved by a run of passes whose replacement
words are all safe for it. -/
theorem passesDown_keeps_absent (dict : List (List Char)) (x : Char) :
    ∀ n, n ≤ 88 →
      (∀ j, j < n → '$' ∉ dict.getD j [] ∧ safeW '&' x (dict.getD j [])) →
      ∀ t, hasPat '&' x t = false → hasPat '&' x (passesDown dict n t) = false := by
  intro n
  induction n with
  | zero => intro _ _ t h; exact h
  | succ n ih =>
    intro hn hj t h
    show hasPat '&' x (passesDown dict n (pass dict n t)) = false
    refine ih (by omega) (fun j hjn => hj j (by omega)) _ ?_
    unfold pass
    rw [expandT_no_dollar _ _ (hj n (by omega)).1]
    exact replaceAll2_keeps_absent '&' x (wc n) _ (hj n (by omega)).2 t h

/-- After the pass for index j has run (as part of running passes n-1..0 with
j < n), no occurrence of placeholder j remains, provided every word of index
at most j is dollar-free and safe for placeholder j. -/
theorem passesDown_backref_resolved (dict : List (List Char)) (j : Nat)
    (hsafe : ∀ m, m ≤ j → '$' ∉ dict.getD m [] ∧ safeW '&' (wc j) (dict.getD m [])) :
    ∀ n, j < n → n ≤ 88 → ∀ t, hasPat '&' (wc j) (passesDown dict n t) = false := by
  intro n
  induction n with
  | zero => intro h; exact absurd h (by omega)
  | succ n ih =>
    intro hjn hn t
    show hasPat '&' (wc j) (passesDown dict n (pass dict n t)) = false
    by_cases hje : j = n
    · subst hje
      refine passesDown_keeps_absent dict (wc j) j (by omega)
        (fun m hmj => hsafe m (by omega)) _ ?_
      unfold pass
      rw [expandT_no_dollar _ _ (hsafe j le_rfl).1]
      exact replaceAll2_kills '&' (wc j) _ (hsafe j le_rfl).2 t
    · exact ih (by omega) (by omega) (pass dict n t)

/-- If the body holds placeholder i and word i holds placeholder k with
i < k, then after all passes the output still holds placeholder k: word i only
enters the text at pass i, after pass k (if any) has already run, and no later
pass touches it. -/
theorem passesDown_forwardref_kept (dict : List (List Char)) (i k : Nat)
    (hik : i < k) (hk88 : k < 88) (hdollar : '$' ∉ dict.getD i [])
    (hw : hasPat '&' (wc k) (dict.getD i []) = true) :
    ∀ n, i < n → n ≤ 88 → ∀ t, hasPat '&' (wc i) t = true →
      hasPat '&' (wc k) (passesDown dict n t) = true := by
  intro n
  induction n with
  | zero => intro h; exact absurd h (by omega)
  | succ n ih =>
    intro hin hn t ht
    show hasPat '&' (wc k) (passesDown dict n (pass dict n t)) = true
    by_cases hie : i = n
    · subst hie
      refine passesDown_keeps dict (wc k) (wc_ne_amp k hk88) i (by omega)
        (fun j hji => wc_inj_ne j (by omega) k hk88 (by omega)) _ ?_
      unfold pass
      rw [expandT_no_dollar _ _ hdollar]
      exact replaceAll2_inserts '&' (wc i) '&' (wc k) _ hw t ht
    · refine ih (by omega) (by omega) (pass dict n t) ?_
      exact replaceAll2_preserves '&' (wc n) (wc i) _ (wc_ne_amp n (by omega))
        (wc_ne_amp i (by omega)) (wc_inj_ne i (by omega) n (by omega) (fun he => hie he)) t ht

/-- Claim C5 (amended): back-reference expansion and forward-reference
preservation hold under explicit well-formedness of the dictionary words of
index at most j — each such word is non-empty, dollar-free, does not start
with symbol j, does not end with the escape character '&', and does not itself
contain placeholder j. (The counterexample shows the unrestricted claim is
false: a word ending in '&' re-creates a placeholder after its pass has run.)
Then for word i containing placeholder j (j < i): no occurrence of placeholder
j survives in the decompressed output; and for word i containing placeholder k
(k > i) with word i referenced from the body, placeholder k remains literally
present in the output. -/
theorem c5_backref_safety (s out p0 p1 : List Char) (restParts : List (List Char))
    (i j k : Nat)
    (hsplit : goSplit '|' ['|'] s = p0 :: p1 :: restParts)
    (hout : decompress s = .ok out)
    (hji : j < i) (hik : i < k) (hk88 : k < 88)
    (hi : i < (goSplit '|' [] p0).length)
    (hword_j : hasPat '&' (wc j) ((goSplit '|' [] p0).getD i []) = true)
    (hword_k : hasPat '&' (wc k) ((goSplit '|' [] p0).getD i []) = true)
    (hbody : hasPat '&' (wc i) p1 = true)
    (hdollar_i : '$' ∉ (goSplit '|' [] p0).getD i [])
    (hsafe : ∀ m, m ≤ j → '$' ∉ (goSplit '|' [] p0).getD m [] ∧
      safeW '&' (wc j) ((goSplit '|' [] p0).getD m [])) :
    hasPat '&' (wc j) out = false ∧ hasPat '&' (wc k) out = true := by
  unfold decompress at hout
  rw [hsplit] at hout
  dsimp only at hout
  by_cases hlen : (goSplit '|' [] p0).length ≤ WILDCARDS.length
  · rw [if_pos hlen] at hout
    have hout2 : passesDown (goSplit '|' [] p0) (goSplit '|' [] p0).length p1 = out :=
      Except.ok.inj hout
    have h88 : (goSplit '|' [] p0).length ≤ 88 := by
      rw [show WILDCARDS.length = 88 from by decide] at hlen
      exact hlen
    rw [← hout2]
    constructor
    · exact passesDown_backref_resolved (goSplit '|' [] p0) j hsafe _ (by omega) h88 p1
    · exact passesDown_forwardref_kept (goSplit '|' [] p0) i k hik hk88 hdollar_i hword_k
        _ (by omega) h88 p1 hbody
  · rw [if_neg hlen] at hout
    cases hout

/-- Witness for c5_backref_safety: dictionary ["w", "a&0b&2c"], body "x&1y";
word 1 holds back-reference &0 and forward-reference &2; the output "xawb&2cy"
has the back-reference expanded and the forward placeholder intact. -/
theorem c5_backref_safety_witness :
    hasPat '&' (wc 0) "xawb&2cy".toList = false ∧
    hasPat '&' (wc 2) "xawb&2cy".toList = true :=
  c5_backref_safety "w|a&0b&2c||x&1y".toList "xawb&2cy".toList
    "w|a&0b&2c".toList "x&1y".toList [] 1 0 2
    (by decide) (by decide) (by decide) (by decide) (by decide) (by decide)
    (by decide) (by decide) (by decide) (by decide)
    (by
      intro m hm
      have hm0 : m = 0 := by omega
      subst hm0
      exact ⟨by decide, by decide, by decide, by decide, by decide⟩)

/-! Claim C10: the string pipeline refines the byte pipeline. -/

/-- The two decompressors are the same algorithm. -/
theorem decompressBytes_eq_decompress (s : List Char) :
    decompressBytes s = decompress s := rfl

/-- The two card-name extractors are the same algorithm. -/
theorem parseCardBytes_eq_parseCard (x : List Char) :
    parseCardBytes x = parseCard x := rfl

/-- parseCommaDelimitedIntegerArray is the int-parsing fold over the segments
readDelimitedBytes would deliver: the '-' and empty special cases coincide. -/
theorem parseComma_eq_segs (p0 : List Char) :
    parseCommaDelimitedIntegerArray p0 = parseIntsSegs (readDelimSegs ',' [] p0) := by
  unfold parseCommaDelimitedIntegerArray readDelimSegs
  by_cases h1 : p0 = ['-']
  · rw [if_pos h1, if_pos (Or.inr h1)]
    rfl
  · rw [if_neg h1]
    by_cases h2 : p0 = []
    · rw [if_pos (Or.inl h2), h2]
      rfl
    · rw [if_neg (by intro h; rcases h with h | h; exact h2 h; exact h1 h)]

/-- The string pipeline's parsed card-name table is the byte pipeline's
section list mapped through parseCard, possibly with one extra trailing
empty-name entry (empty table text, or table text ending in ";;"). -/
theorem cards_rel (p1 : List Char) :
    parseCards (splitDoubleSemicolonArray p1) = (readDelimSegs ';' [';'] p1).map parseCard ∨
    parseCards (splitDoubleSemicolonArray p1) =
      (readDelimSegs ';' [';'] p1).map parseCard ++ [[]] := by
  unfold parseCards splitDoubleSemicolonArray readDelimSegs
  by_cases h1 : p1 = ['-']
  · rw [if_pos h1, if_pos (Or.inr h1)]
    left; rfl
  · rw [if_neg h1]
    by_cases h2 : p1 = []
    · rw [if_pos (Or.inl h2), h2]
      right; rfl
    · rw [if_neg (by intro h; rcases h with h | h; exact h2 h; exact h1 h)]
      rcases goSplit_eq_goSegs_or ';' [';'] p1 with h | h
      · left; rw [h]
      · right
        rw [h, List.map_append]
        rfl

theorem getD_map_lt (l : List (List Char)) (f : List Char → List Char) :
    ∀ i, i < l.length → (l.map f).getD i [] = f (l.getD i []) := by
  induction l with
  | nil => intro i hi; simp at hi
  | cons x l2 ih =>
    intro i hi
    cases i with
    | zero => rfl
    | succ i2 =>
      simp only [List.length_cons] at hi
      exact ih i2 (by omega)

theorem getD_append_lt (l l2 : List (List Char)) :
    ∀ i, i < l.length → (l ++ l2).getD i [] = l.getD i [] := by
  induction l with
  | nil => intro i hi; simp at hi
  | cons x l3 ih =>
    intro i hi
    cases i with
    | zero => rfl
    | succ i2 =>
      simp only [List.length_cons] at hi
      exact ih i2 (by omega)

theorem getD_append_last (l : List (List Char)) (x : List Char) :
    (l ++ [x]).getD l.length [] = x := by
  induction l with
  | nil => rfl
  | cons y l2 ih => exact ih

theorem bumpCt_keys_some (m : List (List Char × Nat)) (k : List Char) (v : Nat)
    (h : lookupCt m k = some v) : (bumpCt m k).map Prod.fst = m.map Prod.fst := by
  induction m with
  | nil => cases h
  | cons p m2 ih =>
    obtain ⟨k2, c⟩ := p
    have h2 : (if k2 = k then some c else lookupCt m2 k) = some v := h
    show (if k2 = k then (k2, c + 1) :: m2 else (k2, c) :: bumpCt m2 k).map Prod.fst = _
    by_cases hk : k2 = k
    · rw [if_pos hk]
      rfl
    · rw [if_neg hk] at h2
      rw [if_neg hk]
      show k2 :: (bumpCt m2 k).map Prod.fst = k2 :: m2.map Prod.fst
      rw [ih h2]

theorem bumpCt_keys_none (m : List (List Char × Nat)) (k : List Char)
    (h : lookupCt m k = none) : (bumpCt m k).map Prod.fst = m.map Prod.fst ++ [k] := by
  induction m with
  | nil => rfl
  | cons p m2 ih =>
    obtain ⟨k2, c⟩ := p
    have h2 : (if k2 = k then some c else lookupCt m2 k) = none := h
    show (if k2 = k then (k2, c + 1) :: m2 else (k2, c) :: bumpCt m2 k).map Prod.fst = _
    by_cases hk : k2 = k
    · rw [if_pos hk] at h2; cases h2
    · rw [if_neg hk] at h2
      rw [if_neg hk]
      show k2 :: (bumpCt m2 k).map Prod.fst = k2 :: (m2.map Prod.fst ++ [k])
      rw [ih h2]

theorem lookupCt_bumpCt_self (m : List (List Char × Nat)) (k : List Char) :
    (lookupCt (bumpCt m k) k).isSome = true := by
  induction m with
  | nil =>
    show (lookupCt [(k, 1)] k).isSome = true
    show (if k = k then some 1 else none).isSome = true
    rw [if_pos rfl]
    rfl
  | cons p m2 ih =>
    obtain ⟨k2, c⟩ := p
    show (lookupCt (if k2 = k then (k2, c + 1) :: m2 else (k2, c) :: bumpCt m2 k) k).isSome = true
    by_cases hk : k2 = k
    · rw [if_pos hk]
      show (if k2 = k then some (c + 1) else lookupCt m2 k).isSome = true
      rw [if_pos hk]
      rfl
    · rw [if_neg hk]
      show (if k2 = k then some c else lookupCt (bumpCt m2 k) k).isSome = true
      rw [if_neg hk]
      exact ih

theorem lookupCt_bumpCt_other (m : List (List Char × Nat)) (k k2 : List Char)
    (hne : k2 ≠ k) : lookupCt (bumpCt m k) k2 = lookupCt m k2 := by
  induction m with
  | nil =>
    show (if k = k2 then some 1 else none) = none
    rw [if_neg (fun h => hne h.symm)]
  | cons p m2 ih =>
    obtain ⟨k3, c⟩ := p
    show lookupCt (if k3 = k then (k3, c + 1) :: m2 else (k3, c) :: bumpCt m2 k) k2 = _
    by_cases hk : k3 = k
    · rw [if_pos hk]
      show (if k3 = k2 then some (c + 1) else lookupCt m2 k2) = (if k3 = k2 then some c else lookupCt m2 k2)
      rw [if_neg (by rw [hk]; exact fun h => hne h.symm), if_neg (by rw [hk]; exact fun h => hne h.symm)]
    · rw [if_neg hk]
      show (if k3 = k2 then some c else lookupCt (bumpCt m2 k) k2) = (if k3 = k2 then some c else lookupCt m2 k2)
      by_cases hk2 : k3 = k2
      · rw [if_pos hk2, if_pos hk2]
      · rw [if_neg hk2, if_neg hk2]
        exact ih

/-- Keys present before the counting loop are still present after it. -/
theorem aggIdx_keys_mono (cards : List (List Char)) :
    ∀ (ints : List Int) (m mF : List (List Char × Nat)),
      aggIdx cards ints m = .ok mF → ∀ k, (lookupCt m k).isSome = true →
      (lookupCt mF k).isSome = true := by
  intro ints
  induction ints with
  | nil =>
    intro m mF h k hk
    cases h
    exact hk
  | cons v vs ih =>
    intro m mF h k hk
    unfold aggIdx at h
    by_cases hoob : v < 0 ∨ (cards.length : Int) ≤ v
    · rw [if_pos hoob] at h; cases h
    · rw [if_neg hoob] at h
      refine ih _ _ h k ?_
      by_cases hkk : k = cards.getD v.toNat []
      · rw [hkk]
        exact lookupCt_bumpCt_self _ _
      · rw [lookupCt_bumpCt_other _ _ _ hkk]
        exact hk

theorem lookupCt_some_mem (m : List (List Char × Nat)) (k : List Char) (c : Nat)
    (h : lookupCt m k = some c) : (k, c) ∈ m := by
  induction m with
  | nil => cases h
  | cons p m2 ih =>
    obtain ⟨k2, c2⟩ := p
    have h2 : (if k2 = k then some c2 else lookupCt m2 k) = some c := h
    by_cases hk : k2 = k
    · rw [if_pos hk] at h2
      cases h2
      rw [hk]
      exact List.mem_cons_self _ _
    · rw [if_neg hk] at h2
      exact List.mem_cons_of_mem _ (ih h2)

theorem mem_keys_isSome (m : List (List Char × Nat)) (k : List Char)
    (h : k ∈ m.map Prod.fst) : (lookupCt m k).isSome = true := by
  induction m with
  | nil => simp at h
  | cons p m2 ih =>
    obtain ⟨k2, c⟩ := p
    show (if k2 = k then some c else lookupCt m2 k).isSome = true
    by_cases hk : k2 = k
    · rw [if_pos hk]; rfl
    · rw [if_neg hk]
      refine ih ?_
      simp only [List.map_cons, List.mem_cons] at h
      rcases h with h | h
      · exact absurd h.symm hk
      · exact h

theorem bumpCt_pos (m : List (List Char × Nat)) (k : List Char)
    (h : ∀ p ∈ m, 1 ≤ p.2) : ∀ p ∈ bumpCt m k, 1 ≤ p.2 := by
  induction m with
  | nil =>
    intro p hp
    rcases List.mem_singleton.mp hp with rfl
    exact le_rfl
  | cons q m2 ih =>
    obtain ⟨k2, c⟩ := q
    intro p hp
    show 1 ≤ p.2
    by_cases hk : k2 = k
    · rw [show bumpCt ((k2, c) :: m2) k = (k2, c + 1) :: m2 from by
        show (if k2 = k then (k2, c + 1) :: m2 else (k2, c) :: bumpCt m2 k) = _
        rw [if_pos hk]] at hp
      rcases List.mem_cons.mp hp with rfl | hp2
      · omega
      · exact h p (List.mem_cons_of_mem _ hp2)
    · rw [show bumpCt ((k2, c) :: m2) k = (k2, c) :: bumpCt m2 k from by
        show (if k2 = k then (k2, c + 1) :: m2 else (k2, c) :: bumpCt m2 k) = _
        rw [if_neg hk]] at hp
      rcases List.mem_cons.mp hp with rfl | hp2
      · exact h (k2, c) (List.mem_cons_self _ _)
      · exact ih (fun p2 hp3 => h p2 (List.mem_cons_of_mem _ hp3)) p hp2

theorem aggIdx_pos (cards : List (List Char)) :
    ∀ (ints : List Int) (m mF : List (List Char × Nat)),
      (∀ p ∈ m, 1 ≤ p.2) → aggIdx cards ints m = .ok mF → ∀ p ∈ mF, 1 ≤ p.2 := by
  intro ints
  induction ints with
  | nil =>
    intro m mF h0 h
    cases h
    exact h0
  | cons v vs ih =>
    intro m mF h0 h
    unfold aggIdx at h
    by_cases hoob : v < 0 ∨ (cards.length : Int) ≤ v
    · rw [if_pos hoob] at h; cases h
    · rw [if_neg hoob] at h
      exact ih _ _ (bumpCt_pos m _ h0) h

theorem insertLe_mem (x k : List Char) (l : List (List Char)) :
    k ∈ insertLe x l ↔ k = x ∨ k ∈ l := by
  induction l with
  | nil => simp [insertLe]
  | cons y l2 ih =>
    show k ∈ (if cardLess x y then x :: y :: l2 else y :: insertLe x l2) ↔ _
    by_cases hc : cardLess x y = true
    · rw [if_pos hc]
      simp only [List.mem_cons]
    · rw [if_neg hc]
      simp only [List.mem_cons, ih]
      tauto

theorem sortCards_mem (k : List Char) (l : List (List Char)) :
    k ∈ sortCards l ↔ k ∈ l := by
  induction l with
  | nil => simp [sortCards]
  | cons x l2 ih =>
    show k ∈ insertLe x (sortCards l2) ↔ _
    rw [insertLe_mem, ih]
    simp

theorem foldl_congr_mem {α : Type} (f g : List Char → α → List Char) :
    ∀ (l : List α) (a : List Char), (∀ x ∈ l, ∀ acc, f acc x = g acc x) →
      l.foldl f a = l.foldl g a := by
  intro l
  induction l with
  | nil => intro a _; rfl
  | cons x l2 ih =>
    intro a h
    show l2.foldl f (f a x) = l2.foldl g (g a x)
    rw [h x (List.mem_cons_self _ _) a]
    exact ih _ (fun x2 hx2 acc => h x2 (List.mem_cons_of_mem _ hx2) acc)

/-- With every count at least one, the parse formatter over the sorted keys
produces exactly getStableOutput. -/
theorem format_eq_stable (mF : List (List Char × Nat)) (hpos : ∀ p ∈ mF, 1 ≤ p.2) :
    formatFold mF (sortCards (mF.map Prod.fst)) [] = (getStableOutput mF, none) := by
  have hmem : ∀ k ∈ sortCards (mF.map Prod.fst), (lookupCt mF k).isSome = true := by
    intro k hk
    exact mem_keys_isSome mF k ((sortCards_mem k _).mp hk)
  rw [formatFold_ok mF _ [] hmem]
  unfold getStableOutput
  refine congrArg (fun z => (z, none)) ?_
  refine foldl_congr_mem _ _ _ [] ?_
  intro k hk acc
  have hks : (lookupCt mF k).isSome = true := hmem k hk
  cases hc : lookupCt mF k with
  | none => rw [hc] at hks; cases hks
  | some c =>
    have hcpos : 1 ≤ c := hpos (k, c) (lookupCt_some_mem mF k c hc)
    simp only [Option.getD_some]
    rw [if_pos (by omega)]
    simp only [List.append_assoc]

/-- Simulation of the byte pipeline's fused index fold by the string
pipeline's parse-then-count: when the string count succeeds with a final map
free of empty names, the byte fold succeeds with the same map and its
first-seen key list. -/
theorem foldSegs_sim (secsB : List (List Char)) (cardsS : List (List Char))
    (hrel : cardsS = secsB.map parseCard ∨ cardsS = secsB.map parseCard ++ [[]])
    (mF : List (List Char × Nat)) (hneF : ∀ p ∈ mF, p.1 ≠ ([] : List Char)) :
    ∀ (segs : List (List Char)) (ints : List Int) (m : List (List Char × Nat)),
      parseIntsSegs segs = .ok ints →
      aggIdx cardsS ints m = .ok mF →
      foldSegs secsB segs (m.map Prod.fst, m) = .ok (mF.map Prod.fst, mF) := by
  have hlen : cardsS.length = secsB.length ∨ cardsS.length = secsB.length + 1 := by
    rcases hrel with h | h
    · left; rw [h, List.length_map]
    · right; rw [h, List.length_append, List.length_map]; rfl
  have hget : ∀ i, i < secsB.length → cardsS.getD i [] = parseCard (secsB.getD i []) := by
    intro i hi
    rcases hrel with h | h
    · rw [h, getD_map_lt secsB parseCard i hi]
    · rw [h, getD_append_lt _ _ i (by rw [List.length_map]; exact hi),
        getD_map_lt secsB parseCard i hi]
  have hextra : cardsS.getD secsB.length [] = [] ∨ secsB.length = cardsS.length := by
    rcases hrel with h | h
    · right; rw [h, List.length_map]
    · left
      rw [h, show secsB.length = (secsB.map parseCard).length from (List.length_map _ _).symm,
        getD_append_last]
  intro segs
  induction segs with
  | nil =>
    intro ints m hp hagg
    cases hp
    cases hagg
    rfl
  | cons seg rest ih =>
    intro ints m hp hagg
    unfold parseIntsSegs at hp
    cases hv : parseInt64 seg with
    | none => rw [hv] at hp; cases hp
    | some v =>
      rw [hv] at hp
      dsimp only at hp
      cases hrest : parseIntsSegs rest with
      | error e => rw [hrest] at hp; cases hp
      | ok vs =>
        rw [hrest] at hp
        dsimp only at hp
        cases hp
        -- string step passed its bounds check
        unfold aggIdx at hagg
        by_cases hoob : v < 0 ∨ (cardsS.length : Int) ≤ v
        · rw [if_pos hoob] at hagg; cases hagg
        · rw [if_neg hoob] at hagg
          have hv0 : 0 ≤ v := by omega
          have hvS : v < (cardsS.length : Int) := by omega
          -- the extra trailing empty entry cannot be referenced
          have hvB : v.toNat < secsB.length := by
            rcases hlen with hl | hl
            · omega
            · by_cases hq : v.toNat < secsB.length
              · exact hq
              · exfalso
                have hvtop : v.toNat = secsB.length := by omega
                have hnil : cardsS.getD v.toNat [] = [] := by
                  rcases hextra with hx | hx
                  · rw [hvtop]; exact hx
                  · omega
                have hkey : (lookupCt mF (cardsS.getD v.toNat [])).isSome = true :=
                  aggIdx_keys_mono cardsS vs _ mF hagg _ (lookupCt_bumpCt_self m _)
                rw [hnil] at hkey
                cases hc : lookupCt mF [] with
                | none => rw [hc] at hkey; cases hkey
                | some c =>
                  exact hneF ([], c) (lookupCt_some_mem mF [] c hc) rfl
          have hname : cardsS.getD v.toNat [] = parseCardBytes (secsB.getD v.toNat []) := by
            rw [hget v.toNat hvB, parseCardBytes_eq_parseCard]
          -- the referenced name is never empty
          have hnameNe : parseCardBytes (secsB.getD v.toNat []) ≠ [] := by
            intro hnil
            have hkey : (lookupCt mF (cardsS.getD v.toNat [])).isSome = true :=
              aggIdx_keys_mono cardsS vs _ mF hagg _ (lookupCt_bumpCt_self m _)
            rw [hname, hnil] at hkey
            cases hc : lookupCt mF [] with
            | none => rw [hc] at hkey; cases hkey
            | some c =>
              exact hneF ([], c) (lookupCt_some_mem mF [] c hc) rfl
          -- run the byte step
          unfold foldSegs parseIdxStep
          rw [hv]
          dsimp only
          rw [if_neg (by
            intro h
            rcases h with h | h
            · omega
            · have : ((secsB.length : Int)) ≤ v := h
              omega)]
          rw [if_neg hnameNe]
          rw [hname] at hagg
          cases hlook : lookupCt m (parseCardBytes (secsB.getD v.toNat [])) with
          | some c0 =>
            dsimp only
            rw [show (m.map Prod.fst, bumpCt m (parseCardBytes (secsB.getD v.toNat []))) =
              ((bumpCt m (parseCardBytes (secsB.getD v.toNat []))).map Prod.fst,
                bumpCt m (parseCardBytes (secsB.getD v.toNat []))) from by
              rw [bumpCt_keys_some m _ c0 hlook]]
            exact ih vs _ hrest hagg
          | none =>
            dsimp only
            rw [show (m.map Prod.fst ++ [parseCardBytes (secsB.getD v.toNat [])],
                bumpCt m (parseCardBytes (secsB.getD v.toNat []))) =
              ((bumpCt m (parseCardBytes (secsB.getD v.toNat []))).map Prod.fst,
                bumpCt m (parseCardBytes (secsB.getD v.toNat []))) from by
              rw [bumpCt_keys_none m _ hlook]]
            exact ih vs _ hrest hagg

/-- Claim C10 (amended: the two pipelines are not equivalent — see the
counterexample — but the string pipeline refines the byte pipeline away from
empty display names): whenever decompressDeck succeeds with a multiset whose
keys are all non-empty, deck.parse succeeds on the same document and renders
exactly getStableOutput of that multiset. -/
theorem c10_string_refines_byte (s : List Char) (m : List (List Char × Nat))
    (hok : decompressDeck s = .ok m)
    (hne : ∀ p ∈ m, p.1 ≠ ([] : List Char)) :
    deckParse s = .ret (getStableOutput m) none := by
  unfold decompressDeck at hok
  cases hdec : decompress s with
  | error e => rw [hdec] at hok; cases hok
  | ok doc =>
    rw [hdec] at hok
    dsimp only at hok
    cases hsplit : goSplit ';' [';', ';'] doc with
    | nil => rw [hsplit] at hok; cases hok
    | cons p0 partsRest =>
      rw [hsplit] at hok
      dsimp only at hok
      cases hints : parseCommaDelimitedIntegerArray p0 with
      | error e => rw [hints] at hok; cases hok
      | ok ints =>
        rw [hints] at hok
        dsimp only at hok
        cases partsRest with
        | nil => cases hok
        | cons p1 rest2 =>
          dsimp only at hok
          -- byte side
          unfold deckParse
          rw [decompressBytes_eq_decompress, hdec]
          dsimp only
          rw [hsplit]
          dsimp only
          have hsegsInts : parseIntsSegs (readDelimSegs ',' [] p0) = .ok ints := by
            rw [← parseComma_eq_segs]
            exact hints
          have hsim := foldSegs_sim (readDelimSegs ';' [';'] p1)
            (parseCards (splitDoubleSemicolonArray p1)) (cards_rel p1) m hne
            (readDelimSegs ',' [] p0) ints [] hsegsInts hok
          rw [show (([] : List (List Char × Nat)).map Prod.fst, ([] : List (List Char × Nat)))
            = (([] : List (List Char)), ([] : List (List Char × Nat))) from rfl] at hsim
          rw [hsim]
          dsimp only
          rw [format_eq_stable m (aggIdx_pos _ ints [] m (by intro p hp; simp at hp) hok)]

/-- Witness for c10_string_refines_byte at the worked example. -/
theorem c10_string_refines_byte_witness :
    deckParse exDeck =
      .ret (getStableOutput
        [("card1".toList, 3), ("card2".toList, 2), ("card3".toList, 1)]) none :=
  c10_string_refines_byte exDeck
    [("card1".toList, 3), ("card2".toList, 2), ("card3".toList, 1)]
    (by decide) (by decide)

end STS
